import Mathlib

set_option maxRecDepth 100000

/-!
Verification of the Shiki syntax-highlighting post-processor of this
repository (the `highlightFile` / `walkDir` / `main` script).  The script is
embedded shallowly: documents are `List Char`, the JavaScript regular
expression `<pre><code class="language-(\w+)">([\s\S]*?)<\/code><\/pre>` is
embedded as an executable scanner, `String.prototype.replace` (string
pattern, first occurrence) and global entity replacement are embedded as
executable list functions, and the directory walk is embedded as a recursion
over an explicit filesystem tree.  The external highlighting engine
(`codeToHtml`) is a parameter of type `Engine`; `none` models a call that
throws.
-/

namespace Highlight

/-- `\w` of the JavaScript regular expression: `[A-Za-z0-9_]`. -/
def isWordChar (c : Char) : Bool := c.isAlphanum || c == '_'

/-- Strip `p` from the front of `s`; `none` when `p` is not a prefix of `s`. -/
def dropStart : List Char → List Char → Option (List Char)
  | [], s => some s
  | _ :: _, [] => none
  | p :: ps, x :: xs => if p = x then dropStart ps xs else none

/-- Split `s` at the first (leftmost) occurrence of `pat`:
`firstSplit pat s = some (a, b)` with `s = a ++ pat ++ b` and `a` shortest.
`none` when `pat` does not occur in `s`.  This is the search underlying both
JavaScript's first-occurrence `String.replace` and the lazy `[\s\S]*?` of the
code-block pattern. -/
def firstSplit (pat : List Char) : List Char → Option (List Char × List Char)
  | [] => match pat with
    | [] => some ([], [])
    | _ :: _ => none
  | x :: xs => match dropStart pat (x :: xs) with
    | some rest => some ([], rest)
    | none => match firstSplit pat xs with
      | some (a, b) => some (x :: a, b)
      | none => none

/-- JavaScript `s.replace(pat, repl)` with a string pattern: replace the first
occurrence of `pat`, or return `s` unchanged when `pat` does not occur. -/
def replaceFirst (pat repl s : List Char) : List Char :=
  match firstSplit pat s with
  | some (a, b) => a ++ repl ++ b
  | none => s

/-- Fuel-indexed body of `replaceAll`; the fuel dominates the length of the
remaining input (each step consumes at least one character for the non-empty
patterns in use), so the fuel-exhaustion branch is never taken. -/
def replaceAllF (pat repl : List Char) : Nat → List Char → List Char
  | _, [] => []
  | 0, s => s
  | fuel + 1, x :: xs =>
    match dropStart pat (x :: xs) with
    | some rest => repl ++ replaceAllF pat repl fuel rest
    | none => x :: replaceAllF pat repl fuel xs

/-- JavaScript `s.replace(/pat/g, repl)` for a literal pattern: replace every
non-overlapping occurrence of `pat`, scanning left to right. -/
def replaceAll (pat repl s : List Char) : List Char :=
  replaceAllF pat repl s.length s

/-- The apostrophe character, the decoding of `&#39;`. -/
def aposChar : Char := Char.ofNat 39

/-- The entity `&#39;` as a character list. -/
def entApos : List Char := "&#39;".toList

def entLt : List Char := "&lt;".toList
def entGt : List Char := "&gt;".toList
def entAmp : List Char := "&amp;".toList
def entQuot : List Char := "&quot;".toList

/-- The entity decoding chain of `highlightFile`, in the source's order:
`.replace(/&lt;/g,"<").replace(/&gt;/g,">").replace(/&amp;/g,"&")
.replace(/&quot;/g,'"').replace(/&#39;/g,"'")`. -/
def decodeEntities (s : List Char) : List Char :=
  replaceAll entApos [aposChar]
    (replaceAll entQuot ['"']
      (replaceAll entAmp ['&']
        (replaceAll entGt ['>']
          (replaceAll entLt ['<'] s))))

/-- The fixed opening-tag literal of the code-block pattern, up to the
language tag: `<pre><code class="language-`. -/
def openPre : List Char := "<pre><code class=\"language-".toList

/-- The two characters closing the opening tag after the language tag. -/
def tagEnd : List Char := "\">".toList

/-- The closing-tag literal of the code-block pattern: `</code></pre>`. -/
def closeTag : List Char := "</code></pre>".toList

/-- One match of the code-block pattern: the captured language tag and the
captured raw inner payload. -/
structure CMatch where
  lang : List Char
  code : List Char
deriving DecidableEq, Repr

/-- The full matched text of a `CMatch`: open tag + payload + close tag. -/
def fullOf (m : CMatch) : List Char :=
  openPre ++ m.lang ++ tagEnd ++ m.code ++ closeTag

/-- Attempt to match the code-block pattern at the start of `s`:
`<pre><code class="language-` then a greedy non-empty run of word characters,
then `">`, then a lazy payload up to the first `</code></pre>`.  Returns the
match and the remainder of the input after it. -/
def matchAtHere (s : List Char) : Option (CMatch × List Char) :=
  match dropStart openPre s with
  | none => none
  | some r1 =>
    if (r1.takeWhile isWordChar).isEmpty then none
    else
      match dropStart tagEnd (r1.dropWhile isWordChar) with
      | none => none
      | some r2 =>
        match firstSplit closeTag r2 with
        | none => none
        | some cb => some (⟨r1.takeWhile isWordChar, cb.1⟩, cb.2)

/-- Fuel-indexed body of `matchAll`: try a match at the current position,
emit it and resume after it, or advance one character.  The scan never
backtracks, matching the global-flag `matchAll` semantics; each step
consumes at least one character, so fuel equal to the input length never
runs out. -/
def matchAllF : Nat → List Char → List CMatch
  | _, [] => []
  | 0, _ :: _ => []
  | fuel + 1, x :: xs =>
    match matchAtHere (x :: xs) with
    | some (m, rest) => m :: matchAllF fuel rest
    | none => matchAllF fuel xs

/-- All matches of the global code-block pattern in `s`, scanned left to
right, non-overlapping: `Array.from(content.matchAll(codeBlockRegex))`. -/
def matchAll (s : List Char) : List CMatch := matchAllF s.length s

/-- Fuel-indexed body of `scanSplit`. -/
def scanSplitF : Nat → List Char → List (List Char × CMatch) × List Char
  | _, [] => ([], [])
  | 0, s => ([], s)
  | fuel + 1, x :: xs =>
    match matchAtHere (x :: xs) with
    | some (m, rest) =>
      let r := scanSplitF fuel rest
      (([], m) :: r.1, r.2)
    | none =>
      let r := scanSplitF fuel xs
      match r.1 with
      | [] => ([], x :: r.2)
      | (g, m) :: ps => ((x :: g, m) :: ps, r.2)

/-- The decomposition of `s` induced by the scan: the gap text before each
match together with the match, and the tail after the last match.  The
concatenation `gap₀ ++ full₀ ++ gap₁ ++ full₁ ++ ⋯ ++ tail` is `s`. -/
def scanSplit (s : List Char) : List (List Char × CMatch) × List Char :=
  scanSplitF s.length s

/-- The supported-language list of the script, verbatim. -/
def LANGUAGES : List (List Char) :=
  [r"typescript".toList, r"javascript".toList, r"python".toList,
   r"rust".toList, r"go".toList, r"bash".toList, r"json".toList,
   r"yaml".toList, r"toml".toList, r"markdown".toList, r"html".toList,
   r"css".toList, r"scss".toList]

/-- The guard of the per-match loop: `!lang || !LANGUAGES.includes(lang)`
skips the match, so a match is processed when its tag is non-empty and a
member of `LANGUAGES`. -/
def isSupported (lang : List Char) : Bool :=
  !lang.isEmpty && LANGUAGES.contains lang

/-- The external highlighting engine `codeToHtml` (with the fixed theme
already applied): given the language tag and the decoded source, return the
highlighted fragment, or `none` when the call throws. -/
abbrev Engine := List Char → List Char → Option (List Char)

/-- The per-match loop of `highlightFile`, threading
`(newContent, modified)`: skip unsupported tags, decode entities, call the
engine, and on success substitute the fragment for the first occurrence of
the full matched text via `newContent.replace(fullMatch, highlighted)`;
on engine failure leave the accumulator unchanged and continue. -/
def applyMatches (e : Engine) : List CMatch → List Char × Bool → List Char × Bool
  | [], acc => acc
  | m :: ms, acc =>
    if isSupported m.lang then
      match e m.lang (decodeEntities m.code) with
      | some h => applyMatches e ms (replaceFirst (fullOf m) h acc.1, true)
      | none => applyMatches e ms acc
    else applyMatches e ms acc

/-- The in-memory transformation of `highlightFile` on one document:
collect all matches of the original content, then run the per-match loop.
Returns the final document and the `modified` flag. -/
def processContent (e : Engine) (c : List Char) : List Char × Bool :=
  applyMatches e (matchAll c) (c, false)

/-- The write decision of `highlightFile`: `some newContent` when the file is
written back (`modified` is set), `none` when no write happens. -/
def processFile (e : Engine) (c : List Char) : Option (List Char) :=
  match processContent e c with
  | (nc, true) => some nc
  | (_, false) => none

/-- Modelled from the spec: the replacement policy the specification
describes — every successfully highlighted block is replaced by the engine
fragment at its original match position, skipped and failed blocks are left
verbatim in place, and the text between matches passes through untouched. -/
def specProcess (e : Engine) (c : List Char) : List Char :=
  (scanSplit c).1.foldr
    (fun gm acc =>
      gm.1 ++
        (if isSupported gm.2.lang then
          match e gm.2.lang (decodeEntities gm.2.code) with
          | some h => h
          | none => fullOf gm.2
        else fullOf gm.2) ++ acc)
    (scanSplit c).2

/-! Concrete documents, language tags and engine stubs used to evaluate the
model on specific inputs. -/

def langJson : List Char := "json".toList

def langToml : List Char := "toml".toList

def langXyz : List Char := "xyz".toList

def langRust : List Char := "rust".toList

/-- A complete supported block: `<pre><code class="language-json">1</code></pre>`. -/
def bJson : List Char := "<pre><code class=\"language-json\">1</code></pre>".toList

/-- A complete supported block tagged `toml` with payload `1`. -/
def bToml : List Char := "<pre><code class=\"language-toml\">1</code></pre>".toList

/-- A complete supported block tagged `rust` with payload `2`. -/
def bRust : List Char := "<pre><code class=\"language-rust\">2</code></pre>".toList

/-- An unsupported-language block whose payload is the open tag and payload
of `bJson`; the single closing tag ends the lazy payload, so the whole text
is one match tagged `xyz` and `bJson` is a strict suffix of it. -/
def sXyz : List Char :=
  "<pre><code class=\"language-xyz\"><pre><code class=\"language-json\">1</code></pre>".toList

/-- A supported (`json`) block whose payload is the open tag and payload of
`bToml`, so `bToml` is a strict suffix of it. -/
def sJson : List Char :=
  "<pre><code class=\"language-json\"><pre><code class=\"language-toml\">1</code></pre>".toList

/-- The captured payload of the `sJson` match. -/
def payloadJson1 : List Char := "<pre><code class=\"language-toml\">1".toList

/-- The captured payload of the `sXyz` match. -/
def payloadXyz : List Char := "<pre><code class=\"language-json\">1".toList

def midTxt : List Char := "mid".toList

/-- The opening tag of the `xyz` block. -/
def openXyzTag : List Char := "<pre><code class=\"language-xyz\">".toList

def ampLtL : List Char := "&amp;lt;".toList

def ampGtL : List Char := "&amp;gt;".toList

def ampQuotL : List Char := "&amp;quot;".toList

def ampAposL : List Char := "&amp;#39;".toList

/-- The round-trip example of the specification. -/
def rtInL : List Char := "&lt;div class=&quot;x&quot;&gt;".toList

def rtOutL : List Char := "<div class=\"x\">".toList

/-- Document with an unsupported block containing a copy of a later
supported block's text. -/
def contentXJ : List Char := sXyz ++ midTxt ++ bJson

/-- Document with a failing supported block containing a copy of a later
supported block's text. -/
def contentJT : List Char := sJson ++ midTxt ++ bToml

/-- Document with a failing `rust` block followed by a succeeding `json`
sibling (the specification's engine-failure scenario). -/
def contentRJ : List Char := bRust ++ midTxt ++ bJson

/-- Document with two distinct succeeding blocks. -/
def contentTwo : List Char := bJson ++ midTxt ++ bToml

/-- A block whose language class `c++` contains a non-word character,
wrapped around a complete supported block as its literal payload. -/
def contentCpp : List Char :=
  "<pre><code class=\"language-c++\"><pre><code class=\"language-json\">1</code></pre></code></pre>".toList

/-- Engine fragment: a plain marker not matching the code-block pattern. -/
def fragZ : List Char := "Z".toList

/-- Engine fragment: highlighted markup not matching the code-block
pattern and containing neither the open nor the close literal. -/
def fragSpan : List Char := "<span>1</span>".toList

/-- Engine stub: succeeds on `json` with `fragZ`, throws on everything
else (in particular on `rust` and on the unsupported `xyz`). -/
def engJson : Engine := fun lang _ => if lang = langJson then some fragZ else none

/-- Engine stub agreeing with `engJson` on every supported language and
differing on unsupported ones. -/
def engJsonElse : Engine := fun lang code =>
  if isSupported lang then engJson lang code else some fragZ

/-- Engine stub: succeeds on `json` and on `toml`. -/
def engJT : Engine := fun lang _ =>
  if lang = langJson then some fragZ
  else if lang = langToml then some fragSpan
  else none

/-- Engine stub: succeeds on `toml`, throws on the `sJson` payload. -/
def engFailJson : Engine := fun lang code =>
  if lang = langToml then some fragSpan
  else if lang = langJson then (if code = payloadJson1 then none else some fragZ)
  else none

/-! The directory walk.  A filesystem is an explicit tree; a file's content
is `none` when reading it throws.  `walkDir` visits entries in order,
recurses into directories, and calls `highlightFile` on names ending in
`.html`; the script has no per-file exception handling, so the first raised
error propagates out of the whole recursion to `main`'s catch block. -/

mutual
inductive Fs where
  | file (name : List Char) (content : Option (List Char)) : Fs
  | dir (name : List Char) (entries : FsList) : Fs
deriving DecidableEq

inductive FsList where
  | nil : FsList
  | cons (hd : Fs) (tl : FsList) : FsList
deriving DecidableEq
end

/-- The name of a directory entry, as `readdirSync` returns it. -/
def fsName : Fs → List Char
  | .file n _ => n
  | .dir n _ => n

/-- The entry names of a directory listing. -/
def namesOf : FsList → List (List Char)
  | .nil => []
  | .cons f fs => fsName f :: namesOf fs

/-- `file.endsWith(".html")` on an entry name. -/
def endsHtml (name : List Char) : Bool :=
  List.isSuffixOf (r".html".toList) name

/-- `join(dir, file)`. -/
def joinPath (dir name : List Char) : List Char := dir ++ '/' :: name

/-- The observable outcome of a (partial) walk: paths of `.html` files whose
processing completed, the writes performed, and whether an error was raised
(aborting everything after it). -/
structure WalkOut where
  processed : List (List Char)
  writes : List (List Char × List Char)
  err : Bool
deriving DecidableEq

mutual
/-- `walkDir` on one entry: recurse into a directory; on a `.html` file run
`highlightFile`, whose `readFileSync` throws when the content is absent and
which writes back only when the document was modified. -/
def walkFs (e : Engine) (dir : List Char) : Fs → WalkOut
  | .file name c =>
    if endsHtml name then
      match c with
      | none => ⟨[], [], true⟩
      | some content =>
        match processFile e content with
        | some nc => ⟨[joinPath dir name], [(joinPath dir name, nc)], false⟩
        | none => ⟨[joinPath dir name], [], false⟩
    else ⟨[], [], false⟩
  | .dir name entries => walkFsList e (joinPath dir name) entries

/-- `walkDir`'s loop over a directory listing: sequential, and an error in
one entry aborts the loop — later entries are never visited. -/
def walkFsList (e : Engine) (dir : List Char) : FsList → WalkOut
  | .nil => ⟨[], [], false⟩
  | .cons f fs =>
    let r := walkFs e dir f
    if r.err then r
    else
      let r2 := walkFsList e dir fs
      ⟨r.processed ++ r2.processed, r.writes ++ r2.writes, r2.err⟩
end

/-- The root directory constant of the script. -/
def PUBLIC_DIR : List Char := "public".toList

/-- `main`: a missing root makes `readdirSync` throw immediately, reaching
the catch block with `process.exit(1)` before any file is touched; otherwise
the walk runs, any propagated error again exits 1, and a completed walk
exits 0.  The result is the exit code and the writes performed. -/
def runMain (e : Engine) (root : Option FsList) : Nat × List (List Char × List Char) :=
  match root with
  | none => (1, [])
  | some entries =>
    let r := walkFsList e PUBLIC_DIR entries
    (if r.err then 1 else 0, r.writes)

mutual
/-- Specification-side collector: the paths of all `.html` files reachable
under an entry, independent of any processing. -/
def htmlPaths (dir : List Char) : Fs → List (List Char)
  | .file name _ => if endsHtml name then [joinPath dir name] else []
  | .dir name entries => htmlPathsList (joinPath dir name) entries

/-- Specification-side collector over a directory listing. -/
def htmlPathsList (dir : List Char) : FsList → List (List Char)
  | .nil => []
  | .cons f fs => htmlPaths dir f ++ htmlPathsList dir fs
end

mutual
/-- Every `.html` file under the entry is readable. -/
def readableTree : Fs → Bool
  | .file name c => !endsHtml name || c.isSome
  | .dir _ entries => readableList entries

def readableList : FsList → Bool
  | .nil => true
  | .cons f fs => readableTree f && readableList fs
end

mutual
/-- Some `.html` file occurs under the entry. -/
def hasHtml : Fs → Bool
  | .file name _ => endsHtml name
  | .dir _ entries => hasHtmlList entries

def hasHtmlList : FsList → Bool
  | .nil => false
  | .cons f fs => hasHtml f || hasHtmlList fs
end

/-- An entry name as returned by `readdirSync` never contains a path
separator. -/
def slashFree (name : List Char) : Bool := name.all (fun c => !(c == '/'))

/-- Membership of an entry in a directory listing. -/
def memF (f : Fs) : FsList → Prop
  | .nil => False
  | .cons g gs => f = g ∨ memF f gs

mutual
/-- Well-formed directory tree: names are separator-free and the names in
each directory listing are distinct, as on a real filesystem. -/
def wfTree : Fs → Bool
  | .file n _ => slashFree n
  | .dir n es => slashFree n && wfList es

def wfList : FsList → Bool
  | .nil => true
  | .cons f fs => wfTree f && wfList fs && !((namesOf fs).contains (fsName f))
end

/-- The first path segment of a relative path. -/
def headSeg (s : List Char) : List Char := s.takeWhile (fun c => !(c == '/'))

/-! Concrete trees for the walk claims. -/

def nameA : List Char := "a.html".toList

def nameB : List Char := "b.html".toList

def nameCss : List Char := "style.css".toList

def nameSub : List Char := "sub".toList

/-- A listing with an unreadable `.html` file followed by a readable one
containing two supported code blocks. -/
def treeAB : FsList :=
  .cons (.file nameA none) (.cons (.file nameB (some contentTwo)) .nil)

/-- The same readable second file on its own. -/
def treeB : FsList := .cons (.file nameB (some contentTwo)) .nil

/-- A listing with no `.html` file anywhere. -/
def treeC : FsList :=
  .cons (.file nameCss none) (.cons (.dir nameSub (.cons (.file nameCss none) .nil)) .nil)

/-- A well-formed readable listing with a nested directory. -/
def treeW : FsList :=
  .cons (.file nameB (some contentTwo))
    (.cons (.dir nameSub (.cons (.file nameA (some bJson)) .nil)) .nil)

/-! ## Helper lemmas -/

theorem applyMatches_snd_true (e : Engine) (ms : List CMatch) :
    ∀ s : List Char, (applyMatches e ms (s, true)).2 = true := by
  induction ms with
  | nil => intro s; rfl
  | cons m ms ih =>
    intro s
    simp only [applyMatches]
    split
    · cases e m.lang (decodeEntities m.code) with
      | some h => exact ih _
      | none => exact ih s
    · exact ih s

theorem applyMatches_snd_iff (e : Engine) (ms : List CMatch) (s : List Char) :
    (applyMatches e ms (s, false)).2 = true ↔
      ∃ m, m ∈ ms ∧ isSupported m.lang = true ∧
        (e m.lang (decodeEntities m.code)).isSome = true := by
  induction ms generalizing s with
  | nil => simp [applyMatches]
  | cons m ms ih =>
    simp only [applyMatches]
    by_cases hs : isSupported m.lang = true
    · rw [if_pos hs]
      cases he : e m.lang (decodeEntities m.code) with
      | some h =>
        simp only [applyMatches_snd_true, true_iff]
        exact ⟨m, List.mem_cons_self _ _, hs, by simp [he]⟩
      | none =>
        rw [ih]
        constructor
        · rintro ⟨m1, hm1, h1, h2⟩
          exact ⟨m1, List.mem_cons_of_mem _ hm1, h1, h2⟩
        · rintro ⟨m1, hm1, h1, h2⟩
          rcases List.mem_cons.mp hm1 with h | h
          · subst h; rw [he] at h2; cases h2
          · exact ⟨m1, h, h1, h2⟩
    · rw [if_neg hs, ih]
      constructor
      · rintro ⟨m1, hm1, h1, h2⟩
        exact ⟨m1, List.mem_cons_of_mem _ hm1, h1, h2⟩
      · rintro ⟨m1, hm1, h1, h2⟩
        rcases List.mem_cons.mp hm1 with h | h
        · subst h; exact absurd h1 hs
        · exact ⟨m1, h, h1, h2⟩

theorem applyMatches_fst_of_flag_false (e : Engine) (ms : List CMatch) :
    ∀ s : List Char, (applyMatches e ms (s, false)).2 = false →
      (applyMatches e ms (s, false)).1 = s := by
  induction ms with
  | nil => intro s _; rfl
  | cons m ms ih =>
    intro s hflag
    simp only [applyMatches] at hflag ⊢
    by_cases hs : isSupported m.lang = true
    · rw [if_pos hs] at hflag ⊢
      cases he : e m.lang (decodeEntities m.code) with
      | some h =>
        rw [he] at hflag
        have hflag2 : (applyMatches e ms (replaceFirst (fullOf m) h s, true)).2 = false := hflag
        rw [applyMatches_snd_true] at hflag2
        cases hflag2
      | none =>
        rw [he] at hflag
        exact ih s hflag
    · rw [if_neg hs] at hflag ⊢
      exact ih s hflag

theorem applyMatches_agree (e1 e2 : Engine)
    (hag : ∀ l k, isSupported l = true → e1 l k = e2 l k) :
    ∀ (ms : List CMatch) (acc : List Char × Bool),
      applyMatches e1 ms acc = applyMatches e2 ms acc := by
  intro ms
  induction ms with
  | nil => intro acc; rfl
  | cons m ms ih =>
    intro acc
    simp only [applyMatches]
    by_cases hs : isSupported m.lang = true
    · rw [if_pos hs, if_pos hs, ← hag _ _ hs]
      cases e1 m.lang (decodeEntities m.code) with
      | some h => exact ih _
      | none => exact ih acc
    · rw [if_neg hs, if_neg hs]
      exact ih acc

theorem processFile_isSome_eq (e : Engine) (c : List Char) :
    (processFile e c).isSome = (processContent e c).2 := by
  rcases hp : processContent e c with ⟨a, b⟩
  cases b <;> simp [processFile, hp]

theorem matchAtHere_lang {s : List Char} {m : CMatch} {rest : List Char}
    (h : matchAtHere s = some (m, rest)) :
    m.lang ≠ [] ∧ ∀ c ∈ m.lang, isWordChar c = true := by
  simp only [matchAtHere] at h
  split at h
  · cases h
  · rename_i r1 h1
    split at h
    · cases h
    · rename_i hemp
      split at h
      · cases h
      · split at h
        · cases h
        · rename_i cb h3
          cases h
          refine ⟨?_, ?_⟩
          · intro hnil
            exact hemp (by rw [show List.takeWhile isWordChar r1 = [] from hnil]; rfl)
          · intro c hc
            exact List.mem_takeWhile_imp hc

theorem matchAllF_lang_aux : ∀ (fuel : Nat) (s : List Char),
    ∀ m ∈ matchAllF fuel s, m.lang ≠ [] ∧ ∀ c ∈ m.lang, isWordChar c = true := by
  intro fuel
  induction fuel with
  | zero =>
    intro s m hm
    cases s with
    | nil => cases hm
    | cons x xs => cases hm
  | succ n ih =>
    intro s m hm
    cases s with
    | nil => cases hm
    | cons x xs =>
      rw [matchAllF] at hm
      rcases hma : matchAtHere (x :: xs) with _ | ⟨m0, rest⟩
      · rw [hma] at hm
        exact ih xs m hm
      · rw [hma] at hm
        rcases List.mem_cons.mp hm with h | h
        · subst h
          exact matchAtHere_lang hma
        · exact ih rest m h

/-! ## The claims -/

/-- C1 (counterexample).  The claim states that the decoding is single-pass
with `&amp;` last, so that `&amp;quot;` decodes to `&quot;`.  In the code
`&amp;` is decoded before `&quot;`, so `&amp;quot;` is decoded twice,
yielding a bare double quote. -/
theorem decodeEntities_ampQuot_double :
    decodeEntities ampQuotL = ['"'] ∧ decodeEntities ampQuotL ≠ entQuot := by
  decide

/-- C1 (amended).  The five entities decode as mapped, and the chain is
applied in the order `&lt;`, `&gt;`, `&amp;`, `&quot;`, `&#39;`: `&amp;`
is decoded after `&lt;`/`&gt;` — so `&amp;lt;` and `&amp;gt;` are decoded
exactly once — but before `&quot;`/`&#39;`, so `&amp;quot;` and `&amp;#39;`
are double-decoded.  The specification's round-trip example holds. -/
theorem decodeEntities_order :
    decodeEntities entLt = ['<'] ∧ decodeEntities entGt = ['>'] ∧
    decodeEntities entAmp = ['&'] ∧ decodeEntities entQuot = ['"'] ∧
    decodeEntities entApos = [aposChar] ∧
    decodeEntities ampLtL = entLt ∧ decodeEntities ampGtL = entGt ∧
    decodeEntities ampQuotL = ['"'] ∧ decodeEntities ampAposL = [aposChar] ∧
    decodeEntities rtInL = rtOutL := by
  decide

/-- C4.  `highlightFile` writes the file back exactly when at least one
matched block with a supported language was successfully highlighted: zero
matches, only unsupported tags, or only engine failures all leave the file
unwritten. -/
theorem processFile_write_iff (e : Engine) (c : List Char) :
    (processFile e c).isSome = true ↔
      ∃ m, m ∈ matchAll c ∧ isSupported m.lang = true ∧
        (e m.lang (decodeEntities m.code)).isSome = true := by
  rw [processFile_isSome_eq, processContent, applyMatches_snd_iff]

/-- C3 (counterexample).  The claim states that each successfully highlighted
block is replaced at its original match position.  The code instead replaces
the first occurrence of the matched text in the document: in `contentXJ` the
text of the successful `json` block also occurs earlier, as a suffix of the
skipped `xyz` block, so the fragment lands inside the `xyz` block and the
real `json` block survives — differing from the position-based
`specProcess`. -/
theorem processContent_not_positional :
    (processContent engJson contentXJ).1 = openXyzTag ++ fragZ ++ midTxt ++ bJson ∧
    specProcess engJson contentXJ = sXyz ++ midTxt ++ fragZ ∧
    (processContent engJson contentXJ).1 ≠ specProcess engJson contentXJ := by
  decide

/-- C3 (amended).  All matches are collected from the original content in a
single pass before any replacement, and replacements are applied in match
(left-to-right) order; but each fragment replaces the first occurrence of
the block's matched text in the evolving document, not the text at the
original match position.  The two policies coincide when no block's matched
text occurs elsewhere in the document, as on `contentTwo`. -/
theorem processContent_matches_spec_concrete :
    processContent engJT contentTwo = (specProcess engJT contentTwo, true) ∧
    specProcess engJT contentTwo = fragZ ++ midTxt ++ fragSpan := by
  decide

/-- C5 (counterexample).  The claim states that an unsupported-language
block's byte range passes through identically.  In `contentXJ` the `xyz`
block is matched and skipped, but the replacement keyed on the later
successful `json` block hits the copy of that text inside the `xyz` block,
whose text consequently no longer occurs anywhere in the output. -/
theorem unsupported_block_not_preserved :
    matchAll contentXJ = [⟨langXyz, payloadXyz⟩, ⟨langJson, ['1']⟩] ∧
    isSupported langXyz = false ∧
    fullOf ⟨langXyz, payloadXyz⟩ = sXyz ∧
    firstSplit sXyz (processContent engJson contentXJ).1 = none := by
  decide

/-- C5 (amended).  Unsupported-language blocks are skipped without error and
are never passed to the engine: two engines agreeing on all supported
languages produce identical results — but the skipped block's bytes are only
guaranteed to survive when no successful block's matched text occurs inside
it (see the counterexample). -/
theorem processContent_engine_agree (e1 e2 : Engine) (c : List Char)
    (h : ∀ l k, isSupported l = true → e1 l k = e2 l k) :
    processContent e1 c = processContent e2 c := by
  unfold processContent
  exact applyMatches_agree e1 e2 h (matchAll c) (c, false)

/-- Witness for C5's amended theorem, at the concrete engines `engJson` and
`engJsonElse`, which differ only on unsupported languages. -/
theorem processContent_engine_agree_witness :
    (∀ l k, isSupported l = true → engJson l k = engJsonElse l k) ∧
      processContent engJson contentXJ = processContent engJsonElse contentXJ := by
  have h : ∀ l k, isSupported l = true → engJson l k = engJsonElse l k := by
    intro l k hl
    simp [engJsonElse, hl]
  exact ⟨h, processContent_engine_agree engJson engJsonElse contentXJ h⟩

/-- C6 (counterexample).  The claim states that a block on which the engine
fails is left unmodified in the output.  In `contentJT` the engine fails on
the outer `json` block, whose text contains a copy of the later successful
`toml` block; the replacement keyed on the `toml` block rewrites that copy,
so the failed block's text no longer occurs anywhere in the output. -/
theorem failing_block_not_preserved :
    matchAll contentJT = [⟨langJson, payloadJson1⟩, ⟨langToml, ['1']⟩] ∧
    isSupported langJson = true ∧
    engFailJson langJson (decodeEntities payloadJson1) = none ∧
    fullOf ⟨langJson, payloadJson1⟩ = sJson ∧
    firstSplit sJson (processContent engFailJson contentJT).1 = none := by
  decide

/-- C6 (amended).  An engine failure is recovered per block: the failing
block is not used as a replacement key at that step and the loop continues
with the remaining blocks of the file, as in the specification's scenario —
the failing `rust` block stays verbatim in place while the `json` sibling is
still highlighted and the file is still marked modified.  The failing
block's bytes are only guaranteed to survive when no later successful
block's matched text occurs inside it (see the counterexample). -/
theorem engine_failure_siblings_processed :
    engJson langRust (decodeEntities ['2']) = none ∧
    processContent engJson contentRJ = (bRust ++ midTxt ++ fragZ, true) := by
  decide

/-- C8 (counterexample).  The claim states idempotence whenever the engine
fragments do not themselves match the pattern.  Here both fragments are
match-free, yet the first run — failing on the outer `json` block and
corrupting it via the inner `toml` replacement — leaves a document that the
second run matches afresh as one big `json` block and rewrites again. -/
theorem second_run_changes_file :
    matchAll fragSpan = [] ∧ matchAll fragZ = [] ∧
    (processContent engFailJson contentJT).2 = true ∧
    (processContent engFailJson (processContent engFailJson contentJT).1).2 = true ∧
    (processContent engFailJson (processContent engFailJson contentJT).1).1 ≠
      (processContent engFailJson contentJT).1 := by
  decide

/-- C8 (amended).  A run that modifies nothing is idempotent: if the first
run leaves the `modified` flag unset, the document is unchanged and a second
run (with the same, deterministic engine) again changes nothing and writes
nothing.  When the first run did write, a second run is only inert if its
fresh scan yields no supported-language match on which the engine succeeds —
the fragment-shape hypothesis of the claim is not sufficient (see the
counterexample). -/
theorem processContent_stable_when_unmodified (e : Engine) (c : List Char)
    (h : (processContent e c).2 = false) :
    (processContent e c).1 = c ∧
      processContent e ((processContent e c).1) = (c, false) := by
  have h1 : (processContent e c).1 = c :=
    applyMatches_fst_of_flag_false e (matchAll c) c h
  have h2 : processContent e c = (c, false) := by
    rcases hp : processContent e c with ⟨a, b⟩
    rw [hp] at h1 h
    simp only at h1 h
    subst h1
    subst h
    rfl
  exact ⟨h1, by rw [h1, h2]⟩

/-- Witness for C8's amended theorem at a document with no code block. -/
theorem processContent_stable_when_unmodified_witness :
    (processContent engJT midTxt).2 = false ∧
      ((processContent engJT midTxt).1 = midTxt ∧
        processContent engJT ((processContent engJT midTxt).1) = (midTxt, false)) :=
  ⟨by decide, processContent_stable_when_unmodified engJT midTxt (by decide)⟩

/-- C10 (counterexample).  The claim states that a block whose language
class contains a non-word character is always left byte-identical.  The
`c++` block of `contentCpp` is indeed never matched — the only match is the
supported block occurring literally inside its payload — but replacing that
inner match changes bytes inside the `c++` block's range, so the block is
not byte-identical in the output. -/
theorem nonword_lang_bytes_changed :
    (matchAll contentCpp).map CMatch.lang = [langJson] ∧
    (processContent engJson contentCpp).1 ≠ contentCpp ∧
    firstSplit contentCpp (processContent engJson contentCpp).1 = none := by
  decide

/-- C10 (amended).  Every match the scanner produces has a language tag that
is non-empty and consists only of word characters, so a class such as `c++`
or `objective-c` never produces a match and the empty-tag guard branch of
the loop is unreachable; but bytes inside such a block can still change when
its payload literally contains a complete supported block (see the
counterexample). -/
theorem matchAll_lang_nonempty_word (s : List Char) (m : CMatch)
    (h : m ∈ matchAll s) :
    m.lang ≠ [] ∧ ∀ c ∈ m.lang, isWordChar c = true :=
  matchAllF_lang_aux s.length s m h

/-- Witness for C10's amended theorem at the one match of `bJson`. -/
theorem matchAll_lang_nonempty_word_witness :
    (⟨langJson, ['1']⟩ : CMatch) ∈ matchAll bJson ∧
      (langJson ≠ [] ∧ ∀ c ∈ langJson, isWordChar c = true) := by
  have hm : (⟨langJson, ['1']⟩ : CMatch) ∈ matchAll bJson := by decide
  exact ⟨hm, matchAll_lang_nonempty_word bJson ⟨langJson, ['1']⟩ hm⟩

/-! ## Walk lemmas -/

mutual
theorem walkFs_noHtml (e : Engine) (dir : List Char) :
    ∀ t : Fs, hasHtml t = false → walkFs e dir t = ⟨[], [], false⟩
  | .file name c => by
    intro h
    simp only [hasHtml] at h
    simp [walkFs, h]
  | .dir name es => by
    intro h
    simp only [hasHtml] at h
    simp only [walkFs]
    exact walkFsList_noHtml e (joinPath dir name) es h

theorem walkFsList_noHtml (e : Engine) (dir : List Char) :
    ∀ es : FsList, hasHtmlList es = false → walkFsList e dir es = ⟨[], [], false⟩
  | .nil => by intro _; rfl
  | .cons f fs => by
    intro h
    simp only [hasHtmlList, Bool.or_eq_false_iff] at h
    simp only [walkFsList]
    rw [walkFs_noHtml e dir f h.1, walkFsList_noHtml e dir fs h.2]
    simp
end

mutual
theorem walkFs_processed (e : Engine) (dir : List Char) :
    ∀ t : Fs, readableTree t = true →
      (walkFs e dir t).processed = htmlPaths dir t ∧ (walkFs e dir t).err = false
  | .file name c => by
    intro hr
    simp only [readableTree] at hr
    by_cases hn : endsHtml name = true
    · rw [hn] at hr
      simp only [Bool.not_true, Bool.false_or] at hr
      rcases c with _ | cv
      · cases hr
      · cases hpf : processFile e cv with
        | some nc => simp [walkFs, hn, htmlPaths, hpf]
        | none => simp [walkFs, hn, htmlPaths, hpf]
    · have hn2 : endsHtml name = false := by
        cases hx : endsHtml name
        · rfl
        · exact absurd hx hn
      simp [walkFs, hn2, htmlPaths]
  | .dir name es => by
    intro hr
    simp only [readableTree] at hr
    simp only [walkFs, htmlPaths]
    exact walkFsList_processed e (joinPath dir name) es hr

theorem walkFsList_processed (e : Engine) (dir : List Char) :
    ∀ es : FsList, readableList es = true →
      (walkFsList e dir es).processed = htmlPathsList dir es ∧
      (walkFsList e dir es).err = false
  | .nil => by intro _; exact ⟨rfl, rfl⟩
  | .cons f fs => by
    intro hr
    simp only [readableList, Bool.and_eq_true] at hr
    have w1 := walkFs_processed e dir f hr.1
    have w2 := walkFsList_processed e dir fs hr.2
    simp only [walkFsList, htmlPathsList]
    simp [w1.1, w1.2, w2.1, w2.2]
end

theorem headSeg_of_slashFree {n : List Char} (h : slashFree n = true) :
    headSeg n = n := by
  apply List.takeWhile_eq_self_iff.mpr
  intro c hc
  simp only [slashFree, List.all_eq_true] at h
  exact h c hc

theorem headSeg_append_slash {n : List Char} (r : List Char)
    (h : slashFree n = true) : headSeg (n ++ '/' :: r) = n := by
  induction n with
  | nil => simp [headSeg, List.takeWhile_cons]
  | cons a as ih =>
    simp only [slashFree, List.all_cons, Bool.and_eq_true] at h
    have ih2 := ih h.2
    simp only [headSeg, List.cons_append, List.takeWhile_cons, h.1, if_true] at ih2 ⊢
    rw [ih2]

theorem memF_name {f : Fs} : ∀ {es : FsList}, memF f es → fsName f ∈ namesOf es
  | .nil, h => h.elim
  | .cons g gs, h => by
    rcases h with h | h
    · subst h
      simp [namesOf]
    · simp only [namesOf, List.mem_cons]
      exact Or.inr (memF_name h)

mutual
theorem htmlPaths_shape (dir : List Char) :
    ∀ t : Fs, wfTree t = true → ∀ q ∈ htmlPaths dir t,
      ∃ s, q = dir ++ '/' :: s ∧ headSeg s = fsName t
  | .file name c => by
    intro hwf q hq
    simp only [wfTree] at hwf
    by_cases hn : endsHtml name = true
    · simp only [htmlPaths, hn, if_true, List.mem_singleton] at hq
      subst hq
      exact ⟨name, rfl, headSeg_of_slashFree hwf⟩
    · simp [htmlPaths, hn] at hq
  | .dir name es => by
    intro hwf q hq
    simp only [wfTree, Bool.and_eq_true] at hwf
    simp only [htmlPaths] at hq
    obtain ⟨s1, f1, _, hq1, _⟩ :=
      htmlPathsList_shape (joinPath dir name) es hwf.2 q hq
    refine ⟨name ++ '/' :: s1, ?_, ?_⟩
    · rw [hq1]
      simp [joinPath]
    · exact headSeg_append_slash s1 hwf.1

theorem htmlPathsList_shape (dir : List Char) :
    ∀ es : FsList, wfList es = true → ∀ q ∈ htmlPathsList dir es,
      ∃ s f, memF f es ∧ q = dir ++ '/' :: s ∧ headSeg s = fsName f
  | .nil => by
    intro _ q hq
    simp [htmlPathsList] at hq
  | .cons f fs => by
    intro hwf q hq
    simp only [wfList, Bool.and_eq_true] at hwf
    simp only [htmlPathsList, List.mem_append] at hq
    rcases hq with hq | hq
    · obtain ⟨s, hq1, hs⟩ := htmlPaths_shape dir f hwf.1.1 q hq
      exact ⟨s, f, Or.inl rfl, hq1, hs⟩
    · obtain ⟨s, g, hg, hq1, hs⟩ := htmlPathsList_shape dir fs hwf.1.2 q hq
      exact ⟨s, g, Or.inr hg, hq1, hs⟩
end

mutual
theorem htmlPaths_nodup (dir : List Char) :
    ∀ t : Fs, wfTree t = true → (htmlPaths dir t).Nodup
  | .file name c => by
    intro h
    by_cases hn : endsHtml name = true <;> simp [htmlPaths, hn]
  | .dir name es => by
    intro h
    simp only [wfTree, Bool.and_eq_true] at h
    simp only [htmlPaths]
    exact htmlPathsList_nodup (joinPath dir name) es h.2

theorem htmlPathsList_nodup (dir : List Char) :
    ∀ es : FsList, wfList es = true → (htmlPathsList dir es).Nodup
  | .nil => by
    intro _
    simp [htmlPathsList]
  | .cons f fs => by
    intro h
    simp only [wfList, Bool.and_eq_true] at h
    obtain ⟨⟨h1, h2⟩, h3⟩ := h
    simp only [htmlPathsList]
    rw [List.nodup_append]
    refine ⟨htmlPaths_nodup dir f h1, htmlPathsList_nodup dir fs h2, ?_⟩
    intro q hq1 hq2
    obtain ⟨s1, hqa, hsa⟩ := htmlPaths_shape dir f h1 q hq1
    obtain ⟨s2, g, hg, hqb, hsb⟩ := htmlPathsList_shape dir fs h2 q hq2
    have hss : s1 = s2 := by
      rw [hqa] at hqb
      have hc := List.append_cancel_left hqb
      simpa using hc
    have hnames : fsName f ∈ namesOf fs := by
      rw [show fsName f = fsName g by rw [← hsa, hss, hsb]]
      exact memF_name hg
    have hcont := List.elem_iff.mpr hnames
    simp only [Bool.not_eq_true'] at h3
    rw [show (namesOf fs).contains (fsName f) = (namesOf fs).elem (fsName f) from rfl] at h3
    rw [hcont] at h3
    cases h3
end

/-! ## Walk claims -/

/-- C2 (counterexample).  The claim states that an unreadable file is
skipped and the traversal continues.  With `a.html` unreadable, the whole
run aborts with exit 1 and processes nothing — in particular the readable
`b.html`, which a run over it alone does process and write — so the error is
not confined to the failing file. -/
theorem walkFsList_abort_on_unreadable :
    runMain engJT (some treeAB) = (1, []) ∧
    (walkFsList engJT PUBLIC_DIR treeAB).processed = [] ∧
    (walkFsList engJT PUBLIC_DIR treeB).processed = [joinPath PUBLIC_DIR nameB] ∧
    (walkFsList engJT PUBLIC_DIR treeB).err = false := by
  decide

/-- C2 (amended).  A read error on an individual file is not recovered:
`highlightFile` and `walkDir` have no per-file handler, so the exception
propagates out of the whole recursion — whatever follows the failing file in
the traversal is never visited or written, and `main` exits non-zero. -/
theorem walk_read_error_aborts (e : Engine) (dir name : List Char)
    (rest : FsList) (h : endsHtml name = true) :
    walkFsList e dir (.cons (.file name none) rest) = ⟨[], [], true⟩ := by
  simp [walkFsList, walkFs, h]

/-- Witness for C2's amended theorem: the unreadable `a.html` aborts the
walk regardless of the entries after it. -/
theorem walk_read_error_aborts_witness :
    endsHtml nameA = true ∧
      walkFsList engJT PUBLIC_DIR (.cons (.file nameA none) treeB) = ⟨[], [], true⟩ :=
  ⟨by decide, walk_read_error_aborts engJT PUBLIC_DIR nameA treeB (by decide)⟩

/-- C7.  A missing root directory makes the run exit non-zero without
creating anything or writing any output (the model performs no filesystem
mutation at all in that case), while a run over an existing tree containing
no `.html` file completes with exit code 0 and no writes. -/
theorem runMain_exit_codes (e : Engine) (es : FsList)
    (h : hasHtmlList es = false) :
    runMain e none = (1, []) ∧ runMain e (some es) = (0, []) := by
  refine ⟨rfl, ?_⟩
  simp [runMain, walkFsList_noHtml e PUBLIC_DIR es h]

/-- Witness for C7 at a tree with only non-HTML entries. -/
theorem runMain_exit_codes_witness :
    hasHtmlList treeC = false ∧
      (runMain engJT none = (1, []) ∧ runMain engJT (some treeC) = (0, [])) :=
  ⟨by decide, runMain_exit_codes engJT treeC (by decide)⟩

/-- C9.  On a readable, well-formed tree the traversal is complete: the
files processed are exactly the reachable `.html` paths — directories are
recursed into unconditionally and non-`.html` files are never processed,
since `htmlPaths` collects nothing else — each such path occurs exactly once
(the collected list has no duplicates), and no error is raised. -/
theorem walk_traversal_complete (e : Engine) (es : FsList)
    (hr : readableList es = true) (hwf : wfList es = true) :
    (walkFsList e PUBLIC_DIR es).processed = htmlPathsList PUBLIC_DIR es ∧
    (htmlPathsList PUBLIC_DIR es).Nodup ∧
    (walkFsList e PUBLIC_DIR es).err = false :=
  ⟨(walkFsList_processed e PUBLIC_DIR es hr).1,
   htmlPathsList_nodup PUBLIC_DIR es hwf,
   (walkFsList_processed e PUBLIC_DIR es hr).2⟩

/-- Witness for C9 at a readable two-level tree. -/
theorem walk_traversal_complete_witness :
    (readableList treeW = true ∧ wfList treeW = true) ∧
      ((walkFsList engJT PUBLIC_DIR treeW).processed = htmlPathsList PUBLIC_DIR treeW ∧
        (htmlPathsList PUBLIC_DIR treeW).Nodup ∧
        (walkFsList engJT PUBLIC_DIR treeW).err = false) :=
  ⟨⟨by decide, by decide⟩, walk_traversal_complete engJT treeW (by decide) (by decide)⟩

end Highlight
